import Mathlib

/-!
Verification of the GraphQL replication engine of a client-side document
database (checkpoint-based pull/push sync with echo suppression).

The repository ships the plugin's test suite; the replication plugin itself
(`plugins/replication-graphql`: `createRevisionForPulledDocument`,
`wasRevisionfromPullReplication`, `getLastPushSequence`, `setLastPushSequence`,
`getChangesSinceLastPushSequence`, `getLastPullDocument`, `setLastPullDocument`,
the pull/push cycles and the run coordinator) is not part of the excerpt, so
every operation below is modelled from the specification's description of the
engine, keeping the source's names, and is checked against the behaviour the
test suite pins down (for example `lastSequence = amount + 1` after filtering a
replicated document, or the `count < 10` bound for 50 concurrent `run()` calls).

Strings are modelled as `List Char` (a JavaScript string is a sequence of
characters); document contents and content hashes are abstracted as `Nat`.
-/

namespace RxdbReplication

/-! ## Data model -/

/-- Modelled from the spec: primary keys and revision strings are ordinary
strings; a string is modelled as its list of characters. -/
abbrev DocId := List Char

/-- Modelled from the spec: a remote row as delivered by the pull request
(`id`, the keyset-pagination field `updatedAt`, the configured deleted flag,
and the remaining content abstracted as a `Nat`). -/
structure PullRow where
  id : DocId
  updatedAt : Nat
  deleted : Bool
  data : Nat
deriving DecidableEq, Repr

/-- Modelled from the spec: the locally stored state of one document: its
revision marker, its deletion flag (tombstone) and its content. -/
structure DocState where
  rev : List Char
  deleted : Bool
  data : Nat
deriving DecidableEq, Repr

/-- Modelled from the spec: one record of the local change stream — a primary
key, the document's current full state, and the local sequence number at which
the change became visible. -/
structure ChangeRecord where
  id : DocId
  doc : DocState
  sequence : Nat
deriving DecidableEq, Repr

/-- Modelled from the spec: the local store, keyed by primary identifier. -/
abbrev LocalStore := List (DocId × DocState)

/-! ## Echo tagger

Missing from the excerpt: `createRevisionForPulledDocument` and
`wasRevisionfromPullReplication` of the replication plugin. Modelled from the
spec: the marker is a hash of the content together with an embedded,
endpoint-derived suffix; recognition recomputes and matches the suffix. -/

/-- Modelled from the spec: the fixed identifier string embedded into every
revision marker written by the pull replication. -/
def PULL_REVISION_IDENT : List Char := "rxdb-from-graphql".data

/-- Modelled from the spec: endpoint identities are stable hashes; the
endpoint-derived part of a revision marker has this fixed width in hex
characters. -/
def ENDPOINT_HASH_WIDTH : Nat := 8

/-- Modelled from the spec: content hashes embedded in revision markers have
this fixed width in hex characters. -/
def DATA_HASH_WIDTH : Nat := 8

/-- Hex digit character for a value below 16. -/
def hexChar (n : Nat) : Char :=
  if n < 10 then Char.ofNat (48 + n) else Char.ofNat (87 + n)

/-- Fixed-width big-endian hex rendering of a number (`w` characters). -/
def hexFixed : Nat → Nat → List Char
  | 0, _ => []
  | w + 1, v => hexFixed w (v / 16) ++ [hexChar (v % 16)]

/-- Modelled from the spec: the endpoint-derived suffix of a pull-written
revision marker — the endpoint identity hash rendered at fixed width, followed
by the plugin identifier. -/
def endpointRevisionSuffix (endpointHash : Nat) : List Char :=
  hexFixed ENDPOINT_HASH_WIDTH endpointHash ++ PULL_REVISION_IDENT

/-- Modelled from the spec: `createRevisionForPulledDocument` derives a
deterministic revision marker from the endpoint identity and a stable hash of
the document content: the content hash followed by the endpoint-derived
suffix. -/
def createRevisionForPulledDocument (endpointHash : Nat) (docContentHash : Nat) : List Char :=
  hexFixed DATA_HASH_WIDTH docContentHash ++ endpointRevisionSuffix endpointHash

/-- Modelled from the spec: `wasRevisionfromPullReplication` is true iff the
marker's suffix matches what `createRevisionForPulledDocument` would produce
for that endpoint (recomputed, no lookup table). -/
def wasRevisionfromPullReplication (endpointHash : Nat) (revision : List Char) : Bool :=
  (endpointRevisionSuffix endpointHash).isSuffixOf revision

/-! ## Checkpoint store

Missing from the excerpt: `getLastPushSequence`, `setLastPushSequence`,
`getLastPullDocument`, `setLastPullDocument`. Modelled from the spec: one
checkpoint document per endpoint, stored under a reserved identifier namespace,
holding `lastPushSequence` (default 0) and `lastPullCursor` (default null). -/

/-- Modelled from the spec: the reserved identifier prefix of checkpoint
documents stored by this plugin. -/
def GRAPHQL_REPLICATION_PLUGIN_IDENT : List Char := "rxdbreplicationgraphql".data

/-- Modelled from the spec: a checkpoint document holds the last-acknowledged
push position and the last-acknowledged pull cursor. -/
structure CheckpointDoc where
  lastPushSequence : Nat
  lastPullCursor : Option PullRow
deriving DecidableEq, Repr

/-- Modelled from the spec: the reserved document identifier of the checkpoint
document for one endpoint — the plugin identifier followed by the endpoint
identity hash. -/
def checkpointDocId (endpointHash : Nat) : DocId :=
  GRAPHQL_REPLICATION_PLUGIN_IDENT ++ hexFixed ENDPOINT_HASH_WIDTH endpointHash

/-- Modelled from the spec: the checkpoint documents live in the local store
as ordinary documents keyed by their reserved identifier. -/
abbrev CheckpointStore := List (DocId × CheckpointDoc)

/-- Point read of the checkpoint document of one endpoint. -/
def getCheckpointDoc (store : CheckpointStore) (endpointHash : Nat) : Option CheckpointDoc :=
  (store.find? (fun p => p.1 == checkpointDocId endpointHash)).map (fun p => p.2)

/-- Upsert of the checkpoint document of one endpoint. -/
def upsertCheckpointDoc (store : CheckpointStore) (endpointHash : Nat)
    (d : CheckpointDoc) : CheckpointStore :=
  (checkpointDocId endpointHash, d) :: store.filter (fun p => p.1 != checkpointDocId endpointHash)

/-- Modelled from the spec: `getLastPushSequence` returns the stored push
checkpoint, defaulting to 0 when no checkpoint document exists. -/
def getLastPushSequence (store : CheckpointStore) (endpointHash : Nat) : Nat :=
  match getCheckpointDoc store endpointHash with
  | some d => d.lastPushSequence
  | none => 0

/-- Modelled from the spec: `setLastPushSequence` overwrites the push position
of the endpoint's checkpoint document, creating it when absent. -/
def setLastPushSequence (store : CheckpointStore) (endpointHash : Nat)
    (seq : Nat) : CheckpointStore :=
  match getCheckpointDoc store endpointHash with
  | some d => upsertCheckpointDoc store endpointHash { d with lastPushSequence := seq }
  | none => upsertCheckpointDoc store endpointHash ⟨seq, none⟩

/-- Modelled from the spec: `getLastPullDocument` returns the stored pull
cursor document, defaulting to null when never written. -/
def getLastPullDocument (store : CheckpointStore) (endpointHash : Nat) : Option PullRow :=
  match getCheckpointDoc store endpointHash with
  | some d => d.lastPullCursor
  | none => none

/-- Modelled from the spec: `setLastPullDocument` overwrites the pull cursor of
the endpoint's checkpoint document, creating it when absent. -/
def setLastPullDocument (store : CheckpointStore) (endpointHash : Nat)
    (doc : PullRow) : CheckpointStore :=
  match getCheckpointDoc store endpointHash with
  | some d => upsertCheckpointDoc store endpointHash { d with lastPullCursor := some doc }
  | none => upsertCheckpointDoc store endpointHash ⟨0, some doc⟩

/-- One setter call against the checkpoint store. -/
inductive CheckpointOp where
  | setPush (endpoint : Nat) (seq : Nat)
  | setPull (endpoint : Nat) (doc : PullRow)
deriving DecidableEq, Repr

/-- Apply one setter call. -/
def applyCheckpointOp (store : CheckpointStore) : CheckpointOp → CheckpointStore
  | .setPush e seq => setLastPushSequence store e seq
  | .setPull e doc => setLastPullDocument store e doc

/-- Apply a sequence of setter calls, oldest first. -/
def applyCheckpointOps (store : CheckpointStore) (ops : List CheckpointOp) : CheckpointStore :=
  ops.foldl applyCheckpointOp store

/-- The endpoint identity named by a setter call. -/
def CheckpointOp.endpoint : CheckpointOp → Nat
  | .setPush e _ => e
  | .setPull e _ => e

/-- Specification-side reading of the claim: the value of the most recent
`setPush` call for an endpoint in a list of setter calls (oldest first). -/
def lastSetPush : List CheckpointOp → Nat → Option Nat
  | [], _ => none
  | op :: rest, e =>
    match lastSetPush rest e with
    | some v => some v
    | none =>
      match op with
      | .setPush e2 v => if e2 = e then some v else none
      | .setPull _ _ => none

/-- Specification-side reading of the claim: the document of the most recent
`setPull` call for an endpoint in a list of setter calls (oldest first). -/
def lastSetPull : List CheckpointOp → Nat → Option PullRow
  | [], _ => none
  | op :: rest, e =>
    match lastSetPull rest e with
    | some v => some v
    | none =>
      match op with
      | .setPull e2 v => if e2 = e then some v else none
      | .setPush _ _ => none

/-! ## Push cycle change scan

Missing from the excerpt: `getChangesSinceLastPushSequence`. Modelled from the
spec: read the change records past the checkpoint, coalesce to one entry per
primary key holding its newest state, exclude checkpoint documents and
echo-tagged documents, take up to the limit, and report the highest scanned
sequence so the checkpoint can advance past excluded documents. -/

/-- Modelled from the spec: the predicate that short-circuits the change scan
for checkpoint documents (reserved identifier namespace). -/
def isCheckpointDocId (id : DocId) : Bool :=
  GRAPHQL_REPLICATION_PLUGIN_IDENT.isPrefixOf id

/-- Modelled from the spec: a change record is skipped by the push scan when it
is a checkpoint document or when its current revision marker was produced by
this endpoint (echo suppression). -/
def skipChange (endpointHash : Nat) (c : ChangeRecord) : Bool :=
  isCheckpointDocId c.id || wasRevisionfromPullReplication endpointHash c.doc.rev

/-- Modelled from the spec: coalesce a change feed (ordered by sequence) to one
record per primary key, keeping the newest record. -/
def coalesceNewest : List ChangeRecord → List ChangeRecord
  | [] => []
  | c :: rest =>
    if rest.any (fun d => d.id == c.id) then coalesceNewest rest
    else c :: coalesceNewest rest

/-- The result of the change scan: the coalesced changed documents and the last
scanned sequence number. -/
structure ChangesResult where
  changedDocs : List ChangeRecord
  lastSequence : Nat
deriving DecidableEq, Repr

/-- Modelled from the spec: walk the coalesced feed, skipping excluded records
while still advancing the scanned sequence, collecting at most `limit`
records. -/
def collectChanges (endpointHash : Nat) : List ChangeRecord → Nat → Nat → ChangesResult
  | [], _, last => ⟨[], last⟩
  | c :: rest, limit, last =>
    if limit = 0 then ⟨[], last⟩
    else if skipChange endpointHash c then
      collectChanges endpointHash rest limit (max last c.sequence)
    else
      let r := collectChanges endpointHash rest (limit - 1) (max last c.sequence)
      ⟨c :: r.changedDocs, r.lastSequence⟩

/-- Modelled from the spec: `getChangesSinceLastPushSequence` — change records
with sequence above the push checkpoint, coalesced to newest state per primary
key, excluding checkpoint documents and echo-tagged documents, capped at
`limit`, together with the last scanned sequence. -/
def getChangesSinceLastPushSequence (changes : List ChangeRecord) (endpointHash : Nat)
    (lastPushSequence : Nat) (limit : Nat) : ChangesResult :=
  collectChanges endpointHash
    (coalesceNewest (changes.filter (fun c => lastPushSequence < c.sequence)))
    limit lastPushSequence

/-! ## Applying pulled documents -/

/-- Replace-or-insert of a document state under a primary key. -/
def upsertLocal (store : LocalStore) (id : DocId) (d : DocState) : LocalStore :=
  (id, d) :: store.filter (fun p => p.1 != id)

/-- Point read of a document state. -/
def findDoc (store : LocalStore) (id : DocId) : Option DocState :=
  (store.find? (fun p => p.1 == id)).map (fun p => p.2)

/-- A primary key is present when a non-deleted document state is stored for
it; a tombstoned or never-written key is absent from queries. -/
def isPresent (store : LocalStore) (id : DocId) : Bool :=
  match findDoc store id with
  | some d => !d.deleted
  | none => false

/-- Modelled from the spec: the stable content hash of a pulled row used for
the revision marker, abstracted over the concrete serialization. -/
def rowContentHash (row : PullRow) : Nat := row.data

/-- Modelled from the spec: write one accepted pulled row to the local store as
an upsert tagged with the echo tag for this endpoint; a row whose deleted flag
is set is written as a tombstone upsert. Pulled state overwrites any local
state unconditionally. -/
def applyPulledRow (endpointHash : Nat) (store : LocalStore) (row : PullRow) : LocalStore :=
  upsertLocal store row.id
    ⟨createRevisionForPulledDocument endpointHash (rowContentHash row), row.deleted, row.data⟩

/-- Apply a batch of pulled rows in order. -/
def applyPulledRows (endpointHash : Nat) (store : LocalStore) (rows : List PullRow) : LocalStore :=
  rows.foldl (applyPulledRow endpointHash) store

/-! ## Pull cycle pagination

Modelled from the spec: request a page of up to `pageSize` rows after the
cursor, apply it, persist the cursor derived from the page's last row, and
repeat while a page returns exactly `pageSize` rows. The remote feed is
modelled as the ordered list of rows the endpoint would serve after the
starting cursor. -/

/-- Modelled from the spec: the cursor persisted after a page — derived from
the page's last row, or the previous cursor when the page is empty. -/
def pageCursor (cursor : Option PullRow) (page : List PullRow) : Option PullRow :=
  match page.getLast? with
  | none => cursor
  | some r => some r

/-- Modelled from the spec: one pull cycle — fetch a page, apply it, advance
the cursor, repeat while the page was full. Returns the pages fetched (in
order) and the final persisted cursor. -/
def runPullCycle (pageSize : Nat) (hP : 0 < pageSize) (remote : List PullRow)
    (cursor : Option PullRow) : List (List PullRow) × Option PullRow :=
  if h : (remote.take pageSize).length = pageSize then
    let rest := runPullCycle pageSize hP (remote.drop pageSize)
      (pageCursor cursor (remote.take pageSize))
    (remote.take pageSize :: rest.1, rest.2)
  else
    ([remote.take pageSize], pageCursor cursor (remote.take pageSize))
termination_by remote.length
decreasing_by
  simp only [List.length_take, List.length_drop] at h ⊢
  omega

/-! ## Page processing with modifier and validation

Modelled from the spec: per row apply the optional modifier (a null result
drops the row without failing the page); a modified row must satisfy the schema
before being stored; a validation failure emits one error event for that row,
skips the write, and continues with the remaining rows of the page. -/

/-- The outcome of processing one page: the updated store, the rows that
produced an error event, and the rows written. -/
structure PageResult where
  store : LocalStore
  errors : List PullRow
  written : List PullRow
deriving DecidableEq, Repr

/-- Modelled from the spec: process the rows of one pulled page in order
against the local store. -/
def processPullPage (validate : PullRow → Bool) (modifier : PullRow → Option PullRow)
    (endpointHash : Nat) : List PullRow → LocalStore → PageResult
  | [], store => ⟨store, [], []⟩
  | row :: rest, store =>
    match modifier row with
    | none => processPullPage validate modifier endpointHash rest store
    | some row2 =>
      if validate row2 then
        let r := processPullPage validate modifier endpointHash rest
          (applyPulledRow endpointHash store row2)
        ⟨r.store, r.errors, row2 :: r.written⟩
      else
        let r := processPullPage validate modifier endpointHash rest store
        ⟨r.store, row2 :: r.errors, r.written⟩

/-- Process a list of pages in order, accumulating written rows and error
events. -/
def processPages (validate : PullRow → Bool) (modifier : PullRow → Option PullRow)
    (endpointHash : Nat) : List (List PullRow) → LocalStore →
    LocalStore × List PullRow × List PullRow
  | [], store => (store, [], [])
  | pg :: rest, store =>
    let r := processPullPage validate modifier endpointHash pg store
    let rr := processPages validate modifier endpointHash rest r.store
    (rr.1, r.written ++ rr.2.1, r.errors ++ rr.2.2)

/-- The outcome of one `run()` restricted to its pull half: the final local
store, the received-document events emitted (one per written row, in write
order), the error events, and the final persisted pull cursor. -/
structure RunResult where
  store : LocalStore
  received : List PullRow
  errors : List PullRow
  lastPullCursor : Option PullRow
deriving DecidableEq, Repr

/-- Modelled from the spec: one `run()` against a pull-only endpoint —
`run()` resolves only after the whole pull cycle has been applied to the local
store and the received-document events have been emitted, so the returned
store and event list are what a caller observes immediately after `run()`
resolves. -/
def runPullOnce (pageSize : Nat) (hP : 0 < pageSize) (validate : PullRow → Bool)
    (modifier : PullRow → Option PullRow) (endpointHash : Nat)
    (remote : List PullRow) (store : LocalStore) (cursor : Option PullRow) : RunResult :=
  let pulled := runPullCycle pageSize hP remote cursor
  let processed := processPages validate modifier endpointHash pulled.1 store
  ⟨processed.1, processed.2.1, processed.2.2, pulled.2⟩

/-! ## Run coordinator

Modelled from the spec: run coalescing is an in-flight flag plus a pending
intent flag (a bounded queue of conceptual depth 1); a `run()` call while a
cycle is in flight records the pending intent instead of starting a cycle, and
a finishing cycle starts at most one trailing cycle. -/

/-- The coalescing state of one replication session, with a counter of
actually started pull/push cycles. -/
structure CoordinatorState where
  inFlight : Bool
  pending : Bool
  startedRuns : Nat
deriving DecidableEq, Repr

/-- The events the coordinator reacts to: a `run()` request and the completion
of an in-flight cycle. -/
inductive RunEvent where
  | runCall
  | cycleDone
deriving DecidableEq, Repr

/-- Modelled from the spec: `run()` while in flight only records the pending
intent; `run()` while idle starts a cycle. A completing cycle starts the one
pending trailing cycle when requested, otherwise goes idle. -/
def coordinatorStep (s : CoordinatorState) : RunEvent → CoordinatorState
  | .runCall =>
    if s.inFlight then { s with pending := true }
    else { s with inFlight := true, startedRuns := s.startedRuns + 1 }
  | .cycleDone =>
    if s.pending then { s with pending := false, startedRuns := s.startedRuns + 1 }
    else { s with inFlight := false }

/-- The idle initial state of a session. -/
def coordinatorInit : CoordinatorState := ⟨false, false, 0⟩

/-- Run the coordinator over a sequence of events from the idle state. -/
def runCoordinator (events : List RunEvent) : CoordinatorState :=
  events.foldl coordinatorStep coordinatorInit

/-! ## Retry loop and initial replication

Modelled from the spec: on cycle failure the coordinator schedules a retry
after the fixed `retryTime` delay and runs again, indefinitely, never giving up
on its own; `awaitInitialReplication()` resolves once the first run completes
with no error. -/

/-- The retry-loop view of a live session: how many run attempts have been
made, whether `awaitInitialReplication()` has resolved, and whether the
session was stopped. -/
structure RetryState where
  attempts : Nat
  resolvedInitial : Bool
  stopped : Bool
deriving DecidableEq, Repr

/-- The state before the first run attempt. -/
def retryInit : RetryState := ⟨0, false, false⟩

/-- Modelled from the spec: one run attempt of the live retry loop.
`outcomes n` tells whether the n-th run attempt completes with no error. A
successful run resolves the initial replication; a failing run schedules the
next attempt after `retryTime` — the coordinator never stops or rejects on its
own. -/
def retryStep (outcomes : Nat → Bool) (s : RetryState) : RetryState :=
  if s.stopped then s
  else
    { attempts := s.attempts + 1
      resolvedInitial := s.resolvedInitial || outcomes s.attempts
      stopped := false }

/-- The retry loop after `n` run attempts. -/
def retryLoop (outcomes : Nat → Bool) : Nat → RetryState
  | 0 => retryInit
  | n + 1 => retryStep outcomes (retryLoop outcomes n)

/-! ## Concrete fixtures used by witnesses -/

/-- A plain local change: an ordinary document with an ordinary revision. -/
def sampleChangeA : ChangeRecord := ⟨"a".data, ⟨"r1".data, false, 0⟩, 1⟩

/-- A change whose current revision marker was produced by pulling from
endpoint 3 (an echo of the pull write). -/
def sampleChangeTagged : ChangeRecord :=
  ⟨"b".data, ⟨createRevisionForPulledDocument 3 5, false, 7⟩, 2⟩

/-- A newer change to the same primary key as `sampleChangeA`, a deletion. -/
def sampleChangeA2 : ChangeRecord := ⟨"a".data, ⟨"r2".data, true, 4⟩, 3⟩

/-- A remote data set of five rows, ordered the way the endpoint serves
them. -/
def sampleRemote : List PullRow :=
  [⟨"p1".data, 1, false, 11⟩, ⟨"p2".data, 2, false, 12⟩, ⟨"p3".data, 3, false, 13⟩,
    ⟨"p4".data, 4, false, 14⟩, ⟨"p5".data, 5, true, 15⟩]

/-- A non-deleted remote row for key "x". -/
def samplePulledAlive : PullRow := ⟨"x".data, 7, false, 2⟩

/-- A deleted (tombstone) remote row for key "y". -/
def samplePulledDead : PullRow := ⟨"y".data, 8, true, 3⟩

/-- A local store where key "x" was deleted locally (tombstone). -/
def sampleLocalDeleted : LocalStore := [("x".data, ⟨"r9".data, true, 1⟩)]

/-- A local store where key "y" is present. -/
def sampleLocalAlive : LocalStore := [("y".data, ⟨"r8".data, false, 4⟩)]

/-- A pending non-deleted remote row for key "q1". -/
def sampleRowQ1 : PullRow := ⟨"q1".data, 1, false, 21⟩

/-- A pending non-deleted remote row for key "q2". -/
def sampleRowQ2 : PullRow := ⟨"q2".data, 2, false, 22⟩

/-- A remote holding two pending non-deleted documents. -/
def sampleRemoteAlive : List PullRow := [sampleRowQ1, sampleRowQ2]

/-! ## Lemmas about the echo tagger -/

theorem hexFixed_length (w v : Nat) : (hexFixed w v).length = w := by
  induction w generalizing v with
  | zero => rfl
  | succ w ih => simp [hexFixed, ih]

theorem hexChar_inj_fin : ∀ a b : Fin 16, hexChar a.val = hexChar b.val → a = b := by decide

theorem hexChar_inj (a b : Nat) (ha : a < 16) (hb : b < 16) (h : hexChar a = hexChar b) :
    a = b := by
  have := hexChar_inj_fin ⟨a, ha⟩ ⟨b, hb⟩ h
  exact congrArg Fin.val this

theorem hexFixed_inj (w : Nat) : ∀ v v' : Nat, v < 16 ^ w → v' < 16 ^ w →
    hexFixed w v = hexFixed w v' → v = v' := by
  induction w with
  | zero =>
    intro v v' hv hv' _
    simp only [pow_zero, Nat.lt_one_iff] at hv hv'
    omega
  | succ w ih =>
    intro v v' hv hv' h
    simp only [hexFixed] at h
    have hlen : [hexChar (v % 16)].length = [hexChar (v' % 16)].length := rfl
    have h2 := List.append_inj' h hlen
    have hdiv : v / 16 = v' / 16 := by
      refine ih _ _ ?_ ?_ h2.1
      · have : v < 16 ^ w * 16 := by
          simpa [pow_succ] using hv
        exact Nat.div_lt_of_lt_mul (by omega)
      · have : v' < 16 ^ w * 16 := by
          simpa [pow_succ] using hv'
        exact Nat.div_lt_of_lt_mul (by omega)
    have hmod : v % 16 = v' % 16 := by
      have hc : hexChar (v % 16) = hexChar (v' % 16) := by
        simpa using h2.2
      exact hexChar_inj _ _ (Nat.mod_lt _ (by omega)) (Nat.mod_lt _ (by omega)) hc
    omega

theorem endpointRevisionSuffix_length (e : Nat) :
    (endpointRevisionSuffix e).length = ENDPOINT_HASH_WIDTH + PULL_REVISION_IDENT.length := by
  simp [endpointRevisionSuffix, hexFixed_length]

theorem endpointRevisionSuffix_inj (e e' : Nat) (he : e < 16 ^ ENDPOINT_HASH_WIDTH)
    (he' : e' < 16 ^ ENDPOINT_HASH_WIDTH)
    (h : endpointRevisionSuffix e = endpointRevisionSuffix e') : e = e' := by
  unfold endpointRevisionSuffix at h
  have h2 := List.append_inj' h rfl
  exact hexFixed_inj _ _ _ he he' h2.1

theorem wasRevisionfromPullReplication_createRevision (e content : Nat) :
    wasRevisionfromPullReplication e (createRevisionForPulledDocument e content) = true := by
  simp only [wasRevisionfromPullReplication, createRevisionForPulledDocument,
    List.isSuffixOf_iff_suffix]
  exact List.suffix_append _ _

theorem wasRevisionfromPullReplication_createRevision_ne (e e' content : Nat)
    (he : e < 16 ^ ENDPOINT_HASH_WIDTH) (he' : e' < 16 ^ ENDPOINT_HASH_WIDTH)
    (hne : e ≠ e') :
    wasRevisionfromPullReplication e' (createRevisionForPulledDocument e content) = false := by
  rw [Bool.eq_false_iff]
  intro habs
  rw [wasRevisionfromPullReplication, List.isSuffixOf_iff_suffix] at habs
  have h1 : endpointRevisionSuffix e <:+ createRevisionForPulledDocument e content :=
    List.suffix_append _ _
  have hlen : (endpointRevisionSuffix e').length = (endpointRevisionSuffix e).length := by
    rw [endpointRevisionSuffix_length, endpointRevisionSuffix_length]
  have heq : endpointRevisionSuffix e' = endpointRevisionSuffix e := by
    rcases List.suffix_or_suffix_of_suffix habs h1 with h | h
    · exact h.eq_of_length hlen
    · exact (h.eq_of_length hlen.symm).symm
  exact hne (endpointRevisionSuffix_inj e' e he' he heq).symm

/-- C1: the echo tagger round-trips (`wasRevisionfromPullReplication` accepts
a marker created by `createRevisionForPulledDocument` for the same endpoint),
is deterministic (it is a pure function of endpoint identity and content, so
the same inputs always produce the same marker), and is endpoint-specific: a
marker created for endpoint `e` is not recognised for a distinct endpoint
`e'`, the endpoint identities being fixed-width hash values. -/
theorem echo_tagger_roundtrip_deterministic_endpoint_specific
    (e e' content : Nat) (he : e < 16 ^ ENDPOINT_HASH_WIDTH)
    (he' : e' < 16 ^ ENDPOINT_HASH_WIDTH) (hne : e ≠ e') :
    wasRevisionfromPullReplication e (createRevisionForPulledDocument e content) = true
    ∧ createRevisionForPulledDocument e content = createRevisionForPulledDocument e content
    ∧ wasRevisionfromPullReplication e' (createRevisionForPulledDocument e content) = false :=
  ⟨wasRevisionfromPullReplication_createRevision e content, rfl,
    wasRevisionfromPullReplication_createRevision_ne e e' content he he' hne⟩

/-- Witness for C1 at concrete endpoint identities 1 and 2 and content 5. -/
theorem echo_tagger_roundtrip_deterministic_endpoint_specific_witness :
    wasRevisionfromPullReplication 1 (createRevisionForPulledDocument 1 5) = true
    ∧ createRevisionForPulledDocument 1 5 = createRevisionForPulledDocument 1 5
    ∧ wasRevisionfromPullReplication 2 (createRevisionForPulledDocument 1 5) = false :=
  echo_tagger_roundtrip_deterministic_endpoint_specific 1 2 5 (by decide) (by decide)
    (by decide)

/-! ## Lemmas about the checkpoint store -/

theorem find?_filter_of_ne {α : Type} (l : List (DocId × α)) (k j : DocId) (hne : k ≠ j) :
    (l.filter (fun p => p.1 != j)).find? (fun p => p.1 == k) = l.find? (fun p => p.1 == k) := by
  induction l with
  | nil => rfl
  | cons p rest ih =>
    by_cases hpj : p.1 = j
    · have h1 : List.filter (fun q => q.1 != j) (p :: rest) =
          List.filter (fun q => q.1 != j) rest := by
        simp [List.filter_cons, hpj]
      have h2 : (p.1 == k) = false := by
        simp only [beq_eq_false_iff_ne, hpj]
        exact fun habs => hne habs.symm
      rw [h1, ih]
      simp [List.find?_cons, h2]
    · have h1 : List.filter (fun q => q.1 != j) (p :: rest) =
          p :: List.filter (fun q => q.1 != j) rest := by
        simp [List.filter_cons, hpj]
      rw [h1]
      by_cases hpk : p.1 = k
      · simp [List.find?_cons, hpk]
      · have h2 : (p.1 == k) = false := by simp [hpk]
        simp [List.find?_cons, h2, ih]

theorem checkpointDocId_inj (e e' : Nat) (he : e < 16 ^ ENDPOINT_HASH_WIDTH)
    (he' : e' < 16 ^ ENDPOINT_HASH_WIDTH) (h : checkpointDocId e = checkpointDocId e') :
    e = e' := by
  unfold checkpointDocId at h
  exact hexFixed_inj _ _ _ he he' (List.append_cancel_left h)

theorem getCheckpointDoc_upsert_same (store : CheckpointStore) (e : Nat) (d : CheckpointDoc) :
    getCheckpointDoc (upsertCheckpointDoc store e d) e = some d := by
  simp [getCheckpointDoc, upsertCheckpointDoc, List.find?_cons]

theorem getCheckpointDoc_upsert_other (store : CheckpointStore) (e e' : Nat) (d : CheckpointDoc)
    (hne : checkpointDocId e ≠ checkpointDocId e') :
    getCheckpointDoc (upsertCheckpointDoc store e' d) e = getCheckpointDoc store e := by
  have hid : (checkpointDocId e' == checkpointDocId e) = false := by
    simp
    exact fun habs => hne habs.symm
  simp only [getCheckpointDoc, upsertCheckpointDoc, List.find?_cons, hid]
  rw [find?_filter_of_ne _ _ _ hne]

theorem getLastPushSequence_setPush_same (store : CheckpointStore) (e v : Nat) :
    getLastPushSequence (setLastPushSequence store e v) e = v := by
  unfold setLastPushSequence
  cases hd : getCheckpointDoc store e <;>
    simp [getLastPushSequence, getCheckpointDoc_upsert_same]

theorem getLastPushSequence_setPush_other (store : CheckpointStore) (e e' v : Nat)
    (hne : checkpointDocId e ≠ checkpointDocId e') :
    getLastPushSequence (setLastPushSequence store e' v) e = getLastPushSequence store e := by
  unfold setLastPushSequence
  cases hd : getCheckpointDoc store e' <;>
    simp [getLastPushSequence, getCheckpointDoc_upsert_other _ _ _ _ hne]

theorem getLastPushSequence_setPull_same (store : CheckpointStore) (e : Nat) (doc : PullRow) :
    getLastPushSequence (setLastPullDocument store e doc) e = getLastPushSequence store e := by
  unfold setLastPullDocument
  cases hd : getCheckpointDoc store e <;>
    simp [getLastPushSequence, getCheckpointDoc_upsert_same, hd]

theorem getLastPushSequence_setPull_other (store : CheckpointStore) (e e' : Nat) (doc : PullRow)
    (hne : checkpointDocId e ≠ checkpointDocId e') :
    getLastPushSequence (setLastPullDocument store e' doc) e = getLastPushSequence store e := by
  unfold setLastPullDocument
  cases hd : getCheckpointDoc store e' <;>
    simp [getLastPushSequence, getCheckpointDoc_upsert_other _ _ _ _ hne]

theorem getLastPullDocument_setPull_same (store : CheckpointStore) (e : Nat) (doc : PullRow) :
    getLastPullDocument (setLastPullDocument store e doc) e = some doc := by
  unfold setLastPullDocument
  cases hd : getCheckpointDoc store e <;>
    simp [getLastPullDocument, getCheckpointDoc_upsert_same]

theorem getLastPullDocument_setPull_other (store : CheckpointStore) (e e' : Nat) (doc : PullRow)
    (hne : checkpointDocId e ≠ checkpointDocId e') :
    getLastPullDocument (setLastPullDocument store e' doc) e = getLastPullDocument store e := by
  unfold setLastPullDocument
  cases hd : getCheckpointDoc store e' <;>
    simp [getLastPullDocument, getCheckpointDoc_upsert_other _ _ _ _ hne]

theorem getLastPullDocument_setPush_same (store : CheckpointStore) (e v : Nat) :
    getLastPullDocument (setLastPushSequence store e v) e = getLastPullDocument store e := by
  unfold setLastPushSequence
  cases hd : getCheckpointDoc store e <;>
    simp [getLastPullDocument, getCheckpointDoc_upsert_same, hd]

theorem getLastPullDocument_setPush_other (store : CheckpointStore) (e e' v : Nat)
    (hne : checkpointDocId e ≠ checkpointDocId e') :
    getLastPullDocument (setLastPushSequence store e' v) e = getLastPullDocument store e := by
  unfold setLastPushSequence
  cases hd : getCheckpointDoc store e' <;>
    simp [getLastPullDocument, getCheckpointDoc_upsert_other _ _ _ _ hne]

theorem getLastPushSequence_applyOps (ops : List CheckpointOp) :
    ∀ (store : CheckpointStore) (e : Nat), e < 16 ^ ENDPOINT_HASH_WIDTH →
    (∀ op ∈ ops, op.endpoint < 16 ^ ENDPOINT_HASH_WIDTH) →
    getLastPushSequence (applyCheckpointOps store ops) e =
      (lastSetPush ops e).getD (getLastPushSequence store e) := by
  induction ops with
  | nil => intro store e _ _; rfl
  | cons op rest ih =>
    intro store e he hops
    have hstep : applyCheckpointOps store (op :: rest) =
        applyCheckpointOps (applyCheckpointOp store op) rest := rfl
    rw [hstep, ih _ e he (fun o ho => hops o (List.mem_cons_of_mem _ ho))]
    cases hrest : lastSetPush rest e with
    | some v => simp [lastSetPush, hrest]
    | none =>
      simp only [lastSetPush, hrest]
      cases op with
      | setPush e2 v =>
        by_cases h2 : e2 = e
        · subst h2
          simp [applyCheckpointOp, getLastPushSequence_setPush_same]
        · have hne : checkpointDocId e ≠ checkpointDocId e2 := fun hid =>
            h2 (checkpointDocId_inj e e2 he (hops _ (List.mem_cons_self _ _)) hid).symm
          simp [applyCheckpointOp, h2, getLastPushSequence_setPush_other _ _ _ _ hne]
      | setPull e2 doc =>
        by_cases h2 : e2 = e
        · subst h2
          simp [applyCheckpointOp, getLastPushSequence_setPull_same]
        · have hne : checkpointDocId e ≠ checkpointDocId e2 := fun hid =>
            h2 (checkpointDocId_inj e e2 he (hops _ (List.mem_cons_self _ _)) hid).symm
          simp [applyCheckpointOp, getLastPushSequence_setPull_other _ _ _ _ hne]

theorem getLastPullDocument_applyOps (ops : List CheckpointOp) :
    ∀ (store : CheckpointStore) (e : Nat), e < 16 ^ ENDPOINT_HASH_WIDTH →
    (∀ op ∈ ops, op.endpoint < 16 ^ ENDPOINT_HASH_WIDTH) →
    getLastPullDocument (applyCheckpointOps store ops) e =
      (lastSetPull ops e).or (getLastPullDocument store e) := by
  induction ops with
  | nil => intro store e _ _; rfl
  | cons op rest ih =>
    intro store e he hops
    have hstep : applyCheckpointOps store (op :: rest) =
        applyCheckpointOps (applyCheckpointOp store op) rest := rfl
    rw [hstep, ih _ e he (fun o ho => hops o (List.mem_cons_of_mem _ ho))]
    cases hrest : lastSetPull rest e with
    | some v => simp [lastSetPull, hrest]
    | none =>
      simp only [lastSetPull, hrest]
      cases op with
      | setPull e2 doc =>
        by_cases h2 : e2 = e
        · subst h2
          simp [applyCheckpointOp, getLastPullDocument_setPull_same]
        · have hne : checkpointDocId e ≠ checkpointDocId e2 := fun hid =>
            h2 (checkpointDocId_inj e e2 he (hops _ (List.mem_cons_self _ _)) hid).symm
          simp [applyCheckpointOp, h2, getLastPullDocument_setPull_other _ _ _ _ hne]
      | setPush e2 v =>
        by_cases h2 : e2 = e
        · subst h2
          simp [applyCheckpointOp, getLastPullDocument_setPush_same]
        · have hne : checkpointDocId e ≠ checkpointDocId e2 := fun hid =>
            h2 (checkpointDocId_inj e e2 he (hops _ (List.mem_cons_self _ _)) hid).symm
          simp [applyCheckpointOp, getLastPullDocument_setPush_other _ _ _ _ hne]

/-- C8: the checkpoint store returns the default on a never-written endpoint
(`getLastPushSequence` 0 on the empty store, `getLastPullDocument` null), and
after any sequence of setter calls each getter returns the value of the most
recent corresponding setter call for that endpoint (endpoint identities being
fixed-width hash values). -/
theorem checkpoint_store_defaults_and_last_writer_wins (ops : List CheckpointOp) (e : Nat)
    (he : e < 16 ^ ENDPOINT_HASH_WIDTH)
    (hops : ∀ op ∈ ops, op.endpoint < 16 ^ ENDPOINT_HASH_WIDTH) :
    getLastPushSequence ([] : CheckpointStore) e = 0
    ∧ getLastPullDocument ([] : CheckpointStore) e = none
    ∧ getLastPushSequence (applyCheckpointOps [] ops) e = (lastSetPush ops e).getD 0
    ∧ getLastPullDocument (applyCheckpointOps [] ops) e = lastSetPull ops e := by
  refine ⟨rfl, rfl, ?_, ?_⟩
  · exact getLastPushSequence_applyOps ops [] e he hops
  · rw [getLastPullDocument_applyOps ops [] e he hops]
    cases lastSetPull ops e <;> rfl

/-- Witness for C8: endpoint 1 is set twice and endpoint 2 interleaved; each
getter returns the most recent corresponding setter's value. -/
theorem checkpoint_store_defaults_and_last_writer_wins_witness :
    getLastPushSequence ([] : CheckpointStore) 1 = 0
    ∧ getLastPullDocument ([] : CheckpointStore) 1 = none
    ∧ getLastPushSequence
        (applyCheckpointOps []
          [.setPush 1 5, .setPush 2 7, .setPull 1 ⟨[], 3, false, 9⟩, .setPush 1 10]) 1 =
      (lastSetPush [.setPush 1 5, .setPush 2 7, .setPull 1 ⟨[], 3, false, 9⟩, .setPush 1 10] 1).getD 0
    ∧ getLastPullDocument
        (applyCheckpointOps []
          [.setPush 1 5, .setPush 2 7, .setPull 1 ⟨[], 3, false, 9⟩, .setPush 1 10]) 1 =
      lastSetPull [.setPush 1 5, .setPush 2 7, .setPull 1 ⟨[], 3, false, 9⟩, .setPush 1 10] 1 :=
  checkpoint_store_defaults_and_last_writer_wins
    [.setPush 1 5, .setPush 2 7, .setPull 1 ⟨[], 3, false, 9⟩, .setPush 1 10] 1
    (by decide) (by decide)

/-! ## Lemmas about the push change scan -/

theorem foldl_max_le_init (cs : List ChangeRecord) :
    ∀ l : Nat, l ≤ cs.foldl (fun a c => max a c.sequence) l := by
  induction cs with
  | nil => intro l; exact le_refl _
  | cons a rest ih =>
    intro l
    exact le_trans (le_max_left _ _) (ih (max l a.sequence))

theorem mem_le_foldl_max (cs : List ChangeRecord) :
    ∀ l : Nat, ∀ c ∈ cs, c.sequence ≤ cs.foldl (fun a c => max a c.sequence) l := by
  induction cs with
  | nil => intro l c hc; simp at hc
  | cons a rest ih =>
    intro l c hc
    rcases List.mem_cons.mp hc with rfl | hc2
    · exact le_trans (le_max_right _ _) (foldl_max_le_init rest (max l c.sequence))
    · exact ih _ c hc2

theorem collectChanges_skip_eq (e : Nat) (a : ChangeRecord) (rest : List ChangeRecord)
    (L l : Nat) (hL : L ≠ 0) (hskip : skipChange e a = true) :
    collectChanges e (a :: rest) L l = collectChanges e rest L (max l a.sequence) := by
  simp [collectChanges, hL, hskip]

theorem collectChanges_keep_eq (e : Nat) (a : ChangeRecord) (rest : List ChangeRecord)
    (L l : Nat) (hL : L ≠ 0) (hskip : skipChange e a = false) :
    collectChanges e (a :: rest) L l =
      ⟨a :: (collectChanges e rest (L - 1) (max l a.sequence)).changedDocs,
        (collectChanges e rest (L - 1) (max l a.sequence)).lastSequence⟩ := by
  simp [collectChanges, hL, hskip]

theorem collectChanges_not_skipped (e : Nat) :
    ∀ (cs : List ChangeRecord) (L l : Nat), ∀ c ∈ (collectChanges e cs L l).changedDocs,
      skipChange e c = false := by
  intro cs
  induction cs with
  | nil => intro L l c hc; simp [collectChanges] at hc
  | cons a rest ih =>
    intro L l c hc
    by_cases hL : L = 0
    · simp [collectChanges, hL] at hc
    · by_cases hskip : skipChange e a = true
      · rw [collectChanges_skip_eq e a rest L l hL hskip] at hc
        exact ih _ _ c hc
      · have hskip2 : skipChange e a = false := by simpa using hskip
        rw [collectChanges_keep_eq e a rest L l hL hskip2] at hc
        rcases List.mem_cons.mp hc with rfl | hc2
        · exact hskip2
        · exact ih _ _ c hc2

theorem collectChanges_sublist (e : Nat) :
    ∀ (cs : List ChangeRecord) (L l : Nat), List.Sublist (collectChanges e cs L l).changedDocs cs := by
  intro cs
  induction cs with
  | nil => intro L l; simp [collectChanges]
  | cons a rest ih =>
    intro L l
    by_cases hL : L = 0
    · simp [collectChanges, hL]
    · by_cases hskip : skipChange e a = true
      · rw [collectChanges_skip_eq e a rest L l hL hskip]
        exact List.Sublist.cons a (ih _ _)
      · have hskip2 : skipChange e a = false := by simpa using hskip
        rw [collectChanges_keep_eq e a rest L l hL hskip2]
        exact List.Sublist.cons₂ a (ih _ _)

theorem collectChanges_length_le (e : Nat) :
    ∀ (cs : List ChangeRecord) (L l : Nat),
      (collectChanges e cs L l).changedDocs.length ≤ L := by
  intro cs
  induction cs with
  | nil => intro L l; simp [collectChanges]
  | cons a rest ih =>
    intro L l
    by_cases hL : L = 0
    · simp [collectChanges, hL]
    · by_cases hskip : skipChange e a = true
      · rw [collectChanges_skip_eq e a rest L l hL hskip]
        exact ih _ _
      · have hskip2 : skipChange e a = false := by simpa using hskip
        rw [collectChanges_keep_eq e a rest L l hL hskip2]
        have := ih (L - 1) (max l a.sequence)
        simp only [List.length_cons]
        omega

theorem collectChanges_lastSequence (e : Nat) :
    ∀ (cs : List ChangeRecord) (L l : Nat),
      (collectChanges e cs L l).changedDocs.length < L →
      (collectChanges e cs L l).lastSequence =
        cs.foldl (fun a c => max a c.sequence) l := by
  intro cs
  induction cs with
  | nil => intro L l _; rfl
  | cons a rest ih =>
    intro L l hlen
    by_cases hL : L = 0
    · subst hL; exact absurd hlen (by omega)
    · by_cases hskip : skipChange e a = true
      · rw [collectChanges_skip_eq e a rest L l hL hskip] at hlen ⊢
        exact ih _ _ hlen
      · have hskip2 : skipChange e a = false := by simpa using hskip
        rw [collectChanges_keep_eq e a rest L l hL hskip2] at hlen ⊢
        simp only [List.length_cons] at hlen
        have hrec : (collectChanges e rest (L - 1) (max l a.sequence)).changedDocs.length
            < L - 1 := by omega
        simpa using ih (L - 1) (max l a.sequence) hrec

theorem coalesceNewest_sublist : ∀ cs : List ChangeRecord, List.Sublist (coalesceNewest cs) cs := by
  intro cs
  induction cs with
  | nil => simp [coalesceNewest]
  | cons a rest ih =>
    by_cases h : rest.any (fun d => d.id == a.id) = true
    · rw [show coalesceNewest (a :: rest) = coalesceNewest rest from by
        simp [coalesceNewest, h]]
      exact List.Sublist.cons a ih
    · have h2 : rest.any (fun d => d.id == a.id) = false := by simpa using h
      rw [show coalesceNewest (a :: rest) = a :: coalesceNewest rest from by
        simp [coalesceNewest, h2]]
      exact List.Sublist.cons₂ a ih

theorem coalesceNewest_nodup_ids : ∀ cs : List ChangeRecord,
    ((coalesceNewest cs).map (fun c => c.id)).Nodup := by
  intro cs
  induction cs with
  | nil => simp [coalesceNewest]
  | cons a rest ih =>
    by_cases h : rest.any (fun d => d.id == a.id) = true
    · rw [show coalesceNewest (a :: rest) = coalesceNewest rest from by
        simp [coalesceNewest, h]]
      exact ih
    · have h2 : rest.any (fun d => d.id == a.id) = false := by simpa using h
      rw [show coalesceNewest (a :: rest) = a :: coalesceNewest rest from by
        simp [coalesceNewest, h2]]
      simp only [List.map_cons, List.nodup_cons]
      refine ⟨?_, ih⟩
      intro habs
      rcases List.mem_map.mp habs with ⟨d, hd, hid⟩
      have hd2 : d ∈ rest := (coalesceNewest_sublist rest).subset hd
      have : rest.any (fun x => x.id == a.id) = true :=
        List.any_eq_true.mpr ⟨d, hd2, by simp [hid]⟩
      rw [this] at h2
      exact absurd h2 (by decide)

theorem coalesceNewest_newest : ∀ cs : List ChangeRecord,
    cs.Pairwise (fun a b => a.sequence < b.sequence) →
    ∀ c ∈ coalesceNewest cs, ∀ d ∈ cs, d.id = c.id → d.sequence ≤ c.sequence := by
  intro cs
  induction cs with
  | nil => intro _ c hc; simp [coalesceNewest] at hc
  | cons a rest ih =>
    intro hp c hc d hd hid
    have hp2 := List.pairwise_cons.mp hp
    by_cases h : rest.any (fun x => x.id == a.id) = true
    · rw [show coalesceNewest (a :: rest) = coalesceNewest rest from by
        simp [coalesceNewest, h]] at hc
      rcases List.mem_cons.mp hd with rfl | hd2
      · have hc2 : c ∈ rest := (coalesceNewest_sublist rest).subset hc
        exact le_of_lt (hp2.1 c hc2)
      · exact ih hp2.2 c hc d hd2 hid
    · have h2 : rest.any (fun x => x.id == a.id) = false := by simpa using h
      rw [show coalesceNewest (a :: rest) = a :: coalesceNewest rest from by
        simp [coalesceNewest, h2]] at hc
      rcases List.mem_cons.mp hc with rfl | hc2
      · rcases List.mem_cons.mp hd with rfl | hd2
        · exact le_refl _
        · exfalso
          have : rest.any (fun x => x.id == c.id) = true :=
            List.any_eq_true.mpr ⟨d, hd2, by simp [hid]⟩
          rw [this] at h2
          exact absurd h2 (by decide)
      · rcases List.mem_cons.mp hd with rfl | hd2
        · have hc3 : c ∈ rest := (coalesceNewest_sublist rest).subset hc2
          exact le_of_lt (hp2.1 c hc3)
        · exact ih hp2.2 c hc2 d hd2 hid

/-- C2: the change scan of the push cycle never returns a checkpoint document
nor a document whose current revision marker was produced by the given
endpoint; in particular a document just written by a pull from that endpoint
(its revision is `createRevisionForPulledDocument` of that endpoint) is never
included in a push batch. When the limit did not cut the scan short, the
returned last-sequence is the maximum over all scanned coalesced records, so
it advances past the excluded documents as well. -/
theorem push_change_scan_excludes_tagged_and_checkpoint_docs
    (changes : List ChangeRecord) (e lastPush limit : Nat) :
    (∀ c ∈ (getChangesSinceLastPushSequence changes e lastPush limit).changedDocs,
        isCheckpointDocId c.id = false
        ∧ wasRevisionfromPullReplication e c.doc.rev = false
        ∧ ∀ contentHash : Nat, c.doc.rev ≠ createRevisionForPulledDocument e contentHash)
    ∧ ((getChangesSinceLastPushSequence changes e lastPush limit).changedDocs.length < limit →
        ∀ d ∈ coalesceNewest (changes.filter (fun x => lastPush < x.sequence)),
          d.sequence ≤ (getChangesSinceLastPushSequence changes e lastPush limit).lastSequence) := by
  constructor
  · intro c hc
    have hskip := collectChanges_not_skipped e _ limit lastPush c hc
    have hcp : isCheckpointDocId c.id = false := by
      rcases Bool.or_eq_false_iff.mp (by simpa [skipChange] using hskip) with ⟨h1, _⟩
      exact h1
    have hrev : wasRevisionfromPullReplication e c.doc.rev = false := by
      rcases Bool.or_eq_false_iff.mp (by simpa [skipChange] using hskip) with ⟨_, h2⟩
      exact h2
    refine ⟨hcp, hrev, ?_⟩
    intro contentHash habs
    have := wasRevisionfromPullReplication_createRevision e contentHash
    rw [← habs] at this
    rw [this] at hrev
    exact absurd hrev (by decide)
  · intro hlen d hd
    have hlast := collectChanges_lastSequence e _ limit lastPush hlen
    simp only [getChangesSinceLastPushSequence] at hlast ⊢
    rw [hlast]
    exact mem_le_foldl_max _ lastPush d hd

/-- Witness for C2: on a change set holding one ordinary document and one
document whose revision was tagged by endpoint 3, the ordinary document is
returned untagged and the excluded document's sequence is still covered by the
returned last-sequence. -/
theorem push_change_scan_excludes_tagged_and_checkpoint_docs_witness :
    isCheckpointDocId sampleChangeA.id = false
    ∧ wasRevisionfromPullReplication 3 sampleChangeA.doc.rev = false
    ∧ sampleChangeTagged.sequence ≤
        (getChangesSinceLastPushSequence [sampleChangeA, sampleChangeTagged] 3 0 10).lastSequence :=
  ⟨((push_change_scan_excludes_tagged_and_checkpoint_docs
      [sampleChangeA, sampleChangeTagged] 3 0 10).1 sampleChangeA (by decide)).1,
   ((push_change_scan_excludes_tagged_and_checkpoint_docs
      [sampleChangeA, sampleChangeTagged] 3 0 10).1 sampleChangeA (by decide)).2.1,
   (push_change_scan_excludes_tagged_and_checkpoint_docs
      [sampleChangeA, sampleChangeTagged] 3 0 10).2 (by decide) sampleChangeTagged (by decide)⟩

/-- C7: the change scan returns at most `limit` entries, with pairwise
distinct primary keys, and every returned entry is a change record of the feed
holding the newest state of its primary key: no change record past the
checkpoint with the same key has a higher sequence (the feed being ordered by
sequence). The returned record carries the document state, so a deletion as
latest change is returned with its deletion flag. -/
theorem push_change_scan_newest_per_key_and_limit
    (changes : List ChangeRecord) (e lastPush limit : Nat)
    (hsorted : changes.Pairwise (fun a b => a.sequence < b.sequence)) :
    (getChangesSinceLastPushSequence changes e lastPush limit).changedDocs.length ≤ limit
    ∧ ((getChangesSinceLastPushSequence changes e lastPush limit).changedDocs.map
        (fun c => c.id)).Nodup
    ∧ ∀ c ∈ (getChangesSinceLastPushSequence changes e lastPush limit).changedDocs,
        c ∈ changes ∧ ∀ d ∈ changes, d.id = c.id → lastPush < d.sequence →
          d.sequence ≤ c.sequence := by
  refine ⟨collectChanges_length_le e _ limit lastPush, ?_, ?_⟩
  · have hsub : List.Sublist
        (getChangesSinceLastPushSequence changes e lastPush limit).changedDocs
        (coalesceNewest (changes.filter (fun x => lastPush < x.sequence))) :=
      collectChanges_sublist e _ limit lastPush
    exact (coalesceNewest_nodup_ids _).sublist (hsub.map (fun c => c.id))
  · intro c hc
    have hc1 : c ∈ coalesceNewest (changes.filter (fun x => lastPush < x.sequence)) :=
      (collectChanges_sublist e _ limit lastPush).subset hc
    have hc2 : c ∈ changes.filter (fun x => lastPush < x.sequence) :=
      (coalesceNewest_sublist _).subset hc1
    refine ⟨(List.mem_filter.mp hc2).1, ?_⟩
    intro d hd hid hdseq
    have hdf : d ∈ changes.filter (fun x => lastPush < x.sequence) :=
      List.mem_filter.mpr ⟨hd, by simpa using hdseq⟩
    exact coalesceNewest_newest _ (hsorted.filter _) c hc1 d hdf hid

/-- Witness for C7: a feed with two changes to key "a" (the newer one a
deletion) and one other document, scanned with limit 2: at most 2 entries,
distinct keys, and the older change to "a" is dominated by the returned
newest one. -/
theorem push_change_scan_newest_per_key_and_limit_witness :
    (getChangesSinceLastPushSequence [sampleChangeA, sampleChangeTagged, sampleChangeA2]
        9 0 2).changedDocs.length ≤ 2
    ∧ ((getChangesSinceLastPushSequence [sampleChangeA, sampleChangeTagged, sampleChangeA2]
        9 0 2).changedDocs.map (fun c => c.id)).Nodup
    ∧ sampleChangeA.sequence ≤ sampleChangeA2.sequence :=
  ⟨(push_change_scan_newest_per_key_and_limit
      [sampleChangeA, sampleChangeTagged, sampleChangeA2] 9 0 2 (by decide)).1,
   (push_change_scan_newest_per_key_and_limit
      [sampleChangeA, sampleChangeTagged, sampleChangeA2] 9 0 2 (by decide)).2.1,
   ((push_change_scan_newest_per_key_and_limit
      [sampleChangeA, sampleChangeTagged, sampleChangeA2] 9 0 2 (by decide)).2.2
      sampleChangeA2 (by decide)).2 sampleChangeA (by decide) (by decide) (by decide)⟩

/-! ## Lemmas about pull pagination -/

theorem isEmpty_false_of_ne_nil {α : Type} (l : List α) (h : l ≠ []) : l.isEmpty = false := by
  cases l with
  | nil => exact absurd rfl h
  | cons a t => rfl

theorem ne_nil_of_isEmpty_false {α : Type} (l : List α) (h : l.isEmpty = false) : l ≠ [] := by
  cases l with
  | nil => simp at h
  | cons a t => exact List.cons_ne_nil a t

theorem runPullCycle_full_eq (P : Nat) (hP : 0 < P) (remote : List PullRow)
    (cursor : Option PullRow) (h : (remote.take P).length = P) :
    runPullCycle P hP remote cursor =
      (remote.take P ::
          (runPullCycle P hP (remote.drop P) (pageCursor cursor (remote.take P))).1,
        (runPullCycle P hP (remote.drop P) (pageCursor cursor (remote.take P))).2) := by
  rw [runPullCycle, dif_pos h]

theorem runPullCycle_short_eq (P : Nat) (hP : 0 < P) (remote : List PullRow)
    (cursor : Option PullRow) (h : (remote.take P).length ≠ P) :
    runPullCycle P hP remote cursor =
      ([remote.take P], pageCursor cursor (remote.take P)) := by
  rw [runPullCycle, dif_neg h]

theorem runPullCycle_full_fst (P : Nat) (hP : 0 < P) (remote : List PullRow)
    (cursor : Option PullRow) (h : (remote.take P).length = P) :
    (runPullCycle P hP remote cursor).1 =
      remote.take P ::
        (runPullCycle P hP (remote.drop P) (pageCursor cursor (remote.take P))).1 := by
  rw [runPullCycle_full_eq P hP remote cursor h]

theorem runPullCycle_full_snd (P : Nat) (hP : 0 < P) (remote : List PullRow)
    (cursor : Option PullRow) (h : (remote.take P).length = P) :
    (runPullCycle P hP remote cursor).2 =
      (runPullCycle P hP (remote.drop P) (pageCursor cursor (remote.take P))).2 := by
  rw [runPullCycle_full_eq P hP remote cursor h]

theorem runPullCycle_short_fst (P : Nat) (hP : 0 < P) (remote : List PullRow)
    (cursor : Option PullRow) (h : (remote.take P).length ≠ P) :
    (runPullCycle P hP remote cursor).1 = [remote.take P] := by
  rw [runPullCycle_short_eq P hP remote cursor h]

theorem runPullCycle_short_snd (P : Nat) (hP : 0 < P) (remote : List PullRow)
    (cursor : Option PullRow) (h : (remote.take P).length ≠ P) :
    (runPullCycle P hP remote cursor).2 = pageCursor cursor (remote.take P) := by
  rw [runPullCycle_short_eq P hP remote cursor h]

theorem short_page_take_eq (P : Nat) (remote : List PullRow)
    (h : (remote.take P).length ≠ P) : remote.take P = remote := by
  apply List.take_of_length_le
  rw [List.length_take] at h
  omega

theorem runPullCycle_flatten (P : Nat) (hP : 0 < P) (remote : List PullRow)
    (cursor : Option PullRow) :
    (runPullCycle P hP remote cursor).1.flatten = remote := by
  induction remote, cursor using runPullCycle.induct P hP with
  | case1 remote cursor h ih =>
    rw [runPullCycle_full_fst P hP remote cursor h]
    simp only [List.flatten_cons, ih]
    exact List.take_append_drop P remote
  | case2 remote cursor h =>
    rw [runPullCycle_short_fst P hP remote cursor h]
    simp [short_page_take_eq P remote h]

theorem runPullCycle_pages_count (P : Nat) (hP : 0 < P) (remote : List PullRow)
    (cursor : Option PullRow) :
    ((runPullCycle P hP remote cursor).1.filter (fun pg => !pg.isEmpty)).length =
      (remote.length + P - 1) / P := by
  induction remote, cursor using runPullCycle.induct P hP with
  | case1 remote cursor h ih =>
    rw [runPullCycle_full_fst P hP remote cursor h]
    have hPle : P ≤ remote.length := by
      rw [List.length_take] at h; omega
    have htakene : remote.take P ≠ [] := by
      intro habs
      rw [habs] at h
      simp at h
      omega
    have hne : ((remote.take P).isEmpty) = false := isEmpty_false_of_ne_nil _ htakene
    rw [List.length_drop] at ih
    have harith : remote.length + P - 1 = (remote.length - P + P - 1) + P := by omega
    rw [List.filter_cons]
    simp only [hne, Bool.not_false, if_pos]
    rw [List.length_cons, ih, harith, Nat.add_div_right _ hP]
  | case2 remote cursor h =>
    rw [runPullCycle_short_fst P hP remote cursor h]
    have hlt : remote.length < P := by
      rw [List.length_take] at h; omega
    rw [short_page_take_eq P remote h]
    by_cases hrem : remote = []
    · subst hrem
      simp [Nat.div_eq_of_lt (by omega : P - 1 < P)]
    · have hne : (remote.isEmpty) = false := isEmpty_false_of_ne_nil _ hrem
      have hlen1 : 1 ≤ remote.length := by
        cases remote with
        | nil => exact absurd rfl hrem
        | cons b t => simp
      rw [List.filter_cons]
      simp only [hne, Bool.not_false, if_pos, List.filter_nil, List.length_cons,
        List.length_nil]
      have hq1 : 1 ≤ (remote.length + P - 1) / P :=
        (Nat.le_div_iff_mul_le hP).mpr (by omega)
      have hq2 : (remote.length + P - 1) / P < 2 :=
        (Nat.div_lt_iff_lt_mul hP).mpr (by omega)
      omega

theorem pageCursor_of_ne_nil (cursor : Option PullRow) (page : List PullRow)
    (h : page ≠ []) : pageCursor cursor page = page.getLast? := by
  unfold pageCursor
  cases hl : page.getLast? with
  | none => exact absurd (List.getLast?_eq_none_iff.mp hl) h
  | some r => rfl

theorem runPullCycle_cursor (P : Nat) (hP : 0 < P) (remote : List PullRow)
    (cursor : Option PullRow) :
    (runPullCycle P hP remote cursor).2 =
      (if remote.isEmpty then cursor else remote.getLast?) := by
  induction remote, cursor using runPullCycle.induct P hP with
  | case1 remote cursor h ih =>
    rw [runPullCycle_full_snd P hP remote cursor h, ih]
    have hPle : P ≤ remote.length := by
      rw [List.length_take] at h; omega
    have hremne : remote ≠ [] := by
      intro habs
      subst habs
      simp at hPle
      omega
    have htakene : remote.take P ≠ [] := by
      intro habs
      rw [habs] at h
      simp at h
      omega
    have hremfalse : (remote.isEmpty) = false := isEmpty_false_of_ne_nil _ hremne
    by_cases hdrop : remote.drop P = []
    · have hlenle : remote.length ≤ P := by
        have h2 := congrArg List.length hdrop
        simp only [List.length_drop, List.length_nil] at h2
        omega
      rw [hdrop]
      simp only [List.isEmpty_nil, if_pos]
      rw [pageCursor_of_ne_nil cursor _ htakene, List.take_of_length_le hlenle,
        hremfalse]
      simp
    · have hdropfalse : ((remote.drop P).isEmpty) = false := isEmpty_false_of_ne_nil _ hdrop
      rw [hdropfalse, hremfalse]
      simp only [Bool.false_eq_true, if_false]
      conv_rhs => rw [← List.take_append_drop P remote]
      rw [List.getLast?_append_of_ne_nil _ hdrop]
  | case2 remote cursor h =>
    rw [runPullCycle_short_snd P hP remote cursor h, short_page_take_eq P remote h]
    by_cases hrem : remote = []
    · subst hrem
      simp [pageCursor]
    · have hremfalse : (remote.isEmpty) = false := isEmpty_false_of_ne_nil _ hrem
      rw [hremfalse]
      simp only [Bool.false_eq_true, if_false]
      exact pageCursor_of_ne_nil cursor remote hrem

theorem runPullCycle_ne_nil (P : Nat) (hP : 0 < P) (remote : List PullRow)
    (cursor : Option PullRow) : (runPullCycle P hP remote cursor).1 ≠ [] := by
  by_cases h : (remote.take P).length = P
  · rw [runPullCycle_full_fst P hP remote cursor h]
    exact List.cons_ne_nil _ _
  · rw [runPullCycle_short_fst P hP remote cursor h]
    exact List.cons_ne_nil _ _

theorem runPullCycle_pages_shape (P : Nat) (hP : 0 < P) (remote : List PullRow)
    (cursor : Option PullRow) :
    (∀ pg ∈ (runPullCycle P hP remote cursor).1.dropLast, pg.length = P)
    ∧ (∀ pg ∈ (runPullCycle P hP remote cursor).1.getLast?, pg.length < P) := by
  induction remote, cursor using runPullCycle.induct P hP with
  | case1 remote cursor h ih =>
    rw [runPullCycle_full_fst P hP remote cursor h]
    have hne := runPullCycle_ne_nil P hP (remote.drop P) (pageCursor cursor (remote.take P))
    constructor
    · intro pg hpg
      rw [List.dropLast_cons_of_ne_nil hne] at hpg
      rcases List.mem_cons.mp hpg with rfl | hpg2
      · exact h
      · exact ih.1 pg hpg2
    · intro pg hpg
      rcases List.exists_cons_of_ne_nil hne with ⟨b, t, hbt⟩
      rw [hbt, List.getLast?_cons_cons] at hpg
      refine ih.2 pg ?_
      rw [hbt]
      exact hpg
  | case2 remote cursor h =>
    rw [runPullCycle_short_fst P hP remote cursor h]
    constructor
    · intro pg hpg
      simp at hpg
    · intro pg hpg
      simp only [List.getLast?_singleton, Option.mem_def, Option.some.injEq] at hpg
      subst hpg
      rw [List.length_take] at h ⊢
      omega

/-- C3: one pull cycle repeats page requests while a page returns exactly
`pageSize` rows (every non-final page has exactly `pageSize` rows) and stops
at the first page returning fewer than `pageSize` rows (the final page is
short); the pages together deliver every remote row in order, the number of
pages that return rows is exactly the ceiling of N divided by the page size,
and the final persisted pull cursor is derived from the last remote row (it is
unchanged only when the remote holds no rows). -/
theorem pull_pagination_pages_and_cursor (P : Nat) (hP : 0 < P)
    (remote : List PullRow) (cursor : Option PullRow) :
    (runPullCycle P hP remote cursor).1.flatten = remote
    ∧ ((runPullCycle P hP remote cursor).1.filter (fun pg => !pg.isEmpty)).length =
        (remote.length + P - 1) / P
    ∧ (∀ pg ∈ (runPullCycle P hP remote cursor).1.dropLast, pg.length = P)
    ∧ (∀ pg ∈ (runPullCycle P hP remote cursor).1.getLast?, pg.length < P)
    ∧ (runPullCycle P hP remote cursor).2 =
        (if remote.isEmpty then cursor else remote.getLast?) :=
  ⟨runPullCycle_flatten P hP remote cursor,
    runPullCycle_pages_count P hP remote cursor,
    (runPullCycle_pages_shape P hP remote cursor).1,
    (runPullCycle_pages_shape P hP remote cursor).2,
    runPullCycle_cursor P hP remote cursor⟩

/-- Witness for C3: five remote rows pulled with page size 2 are delivered in
ceil(5/2) = 3 data pages and the final cursor is derived from the fifth row. -/
theorem pull_pagination_pages_and_cursor_witness :
    (runPullCycle 2 (by decide) sampleRemote none).1.flatten = sampleRemote
    ∧ ((runPullCycle 2 (by decide) sampleRemote none).1.filter
        (fun pg => !pg.isEmpty)).length = (sampleRemote.length + 2 - 1) / 2
    ∧ (runPullCycle 2 (by decide) sampleRemote none).2 =
        (if sampleRemote.isEmpty then none else sampleRemote.getLast?) :=
  ⟨(pull_pagination_pages_and_cursor 2 (by decide) sampleRemote none).1,
    (pull_pagination_pages_and_cursor 2 (by decide) sampleRemote none).2.1,
    (pull_pagination_pages_and_cursor 2 (by decide) sampleRemote none).2.2.2.2⟩

/-! ## Lemmas about applying pulled documents -/

theorem findDoc_upsert_same (store : LocalStore) (id : DocId) (d : DocState) :
    findDoc (upsertLocal store id d) id = some d := by
  simp [findDoc, upsertLocal, List.find?_cons]

theorem findDoc_upsert_other (store : LocalStore) (id j : DocId) (d : DocState)
    (hne : id ≠ j) : findDoc (upsertLocal store j d) id = findDoc store id := by
  have hid : (j == id) = false := by
    simp only [beq_eq_false_iff_ne]
    exact fun habs => hne habs.symm
  simp only [findDoc, upsertLocal, List.find?_cons, hid]
  rw [find?_filter_of_ne _ _ _ hne]

theorem isPresent_applyPulledRow_self (e : Nat) (store : LocalStore) (row : PullRow) :
    isPresent (applyPulledRow e store row) row.id = !row.deleted := by
  simp [isPresent, applyPulledRow, findDoc_upsert_same]

theorem findDoc_applyPulledRow_other (e : Nat) (store : LocalStore) (row : PullRow)
    (id : DocId) (hne : id ≠ row.id) :
    findDoc (applyPulledRow e store row) id = findDoc store id :=
  findDoc_upsert_other store id row.id _ hne

theorem findDoc_applyPulledRows_not_mem (e : Nat) (rows : List PullRow) :
    ∀ (store : LocalStore) (id : DocId), (∀ r ∈ rows, r.id ≠ id) →
      findDoc (applyPulledRows e store rows) id = findDoc store id := by
  induction rows with
  | nil => intro store id _; rfl
  | cons r rest ih =>
    intro store id hno
    have hstep : applyPulledRows e store (r :: rest) =
        applyPulledRows e (applyPulledRow e store r) rest := rfl
    rw [hstep, ih _ id (fun r2 h2 => hno r2 (List.mem_cons_of_mem _ h2)),
      findDoc_applyPulledRow_other e store r id
        (fun habs => hno r (List.mem_cons_self _ _) habs.symm)]

theorem isPresent_applyPulledRows_of_last (e : Nat) (store : LocalStore)
    (l1 l2 : List PullRow) (r : PullRow) (hlast : ∀ r2 ∈ l2, r2.id ≠ r.id) :
    isPresent (applyPulledRows e store (l1 ++ r :: l2)) r.id = !r.deleted := by
  have hsplit : applyPulledRows e store (l1 ++ r :: l2) =
      applyPulledRows e (applyPulledRow e (applyPulledRows e store l1) r) l2 := by
    simp [applyPulledRows, List.foldl_append]
  rw [hsplit]
  unfold isPresent
  rw [findDoc_applyPulledRows_not_mem e l2 _ r.id hlast]
  have := isPresent_applyPulledRow_self e (applyPulledRows e store l1) r
  unfold isPresent at this
  exact this

/-- C4: pulled state always wins over local state at apply time: whatever the
prior local state of the primary key (deleted locally, present locally, or
absent), after one run applies the pulled batch, a key whose last pulled row
is non-deleted is present locally (resurrection) and a key whose last pulled
row is deleted is absent locally (tombstone upsert). -/
theorem pulled_state_overwrites_local_state (e : Nat) (store : LocalStore)
    (l1 l2 : List PullRow) (r : PullRow) (hlast : ∀ r2 ∈ l2, r2.id ≠ r.id) :
    (r.deleted = false →
      isPresent (applyPulledRows e store (l1 ++ r :: l2)) r.id = true)
    ∧ (r.deleted = true →
      isPresent (applyPulledRows e store (l1 ++ r :: l2)) r.id = false) := by
  constructor <;> intro h <;>
    rw [isPresent_applyPulledRows_of_last e store l1 l2 r hlast, h] <;> rfl

/-- Witness for C4: a locally deleted "x" pulled non-deleted becomes present;
a locally present "y" pulled deleted becomes absent. -/
theorem pulled_state_overwrites_local_state_witness :
    isPresent (applyPulledRows 3 sampleLocalDeleted ([] ++ samplePulledAlive :: []))
        samplePulledAlive.id = true
    ∧ isPresent (applyPulledRows 3 sampleLocalAlive ([] ++ samplePulledDead :: []))
        samplePulledDead.id = false :=
  ⟨(pulled_state_overwrites_local_state 3 sampleLocalDeleted [] [] samplePulledAlive
      (by simp)).1 rfl,
    (pulled_state_overwrites_local_state 3 sampleLocalAlive [] [] samplePulledDead
      (by simp)).2 rfl⟩

/-! ## Lemmas about page processing with validation -/

theorem processPullPage_spec (validate : PullRow → Bool) (modifier : PullRow → Option PullRow)
    (e : Nat) (rows : List PullRow) : ∀ store : LocalStore,
    processPullPage validate modifier e rows store =
      ⟨applyPulledRows e store ((rows.filterMap modifier).filter validate),
        (rows.filterMap modifier).filter (fun r => !validate r),
        (rows.filterMap modifier).filter validate⟩ := by
  induction rows with
  | nil => intro store; rfl
  | cons row rest ih =>
    intro store
    cases hm : modifier row with
    | none =>
      simp [processPullPage, hm, List.filterMap_cons, ih]
    | some row2 =>
      by_cases hv : validate row2 = true
      · simp [processPullPage, hm, hv, List.filterMap_cons, List.filter_cons, ih,
          applyPulledRows, List.foldl_cons]
      · have hv2 : validate row2 = false := by simpa using hv
        simp [processPullPage, hm, hv2, List.filterMap_cons, List.filter_cons, ih]

/-- C9: when rows of a pulled page fail schema validation, each offending row
produces exactly one error event (the error list equals the list of offending
modified rows, in page order), offending rows are not written to the local
store (the store receives exactly the valid rows), and the remaining rows of
the page are still processed (the written list equals the valid rows of the
whole page, in order) — the page is not aborted and processing is total, so
the cycle does not throw. -/
theorem pull_validation_failure_skips_row_and_continues
    (validate : PullRow → Bool) (modifier : PullRow → Option PullRow)
    (e : Nat) (rows : List PullRow) (store : LocalStore) :
    (processPullPage validate modifier e rows store).errors =
        (rows.filterMap modifier).filter (fun r => !validate r)
    ∧ (processPullPage validate modifier e rows store).written =
        (rows.filterMap modifier).filter validate
    ∧ (processPullPage validate modifier e rows store).store =
        applyPulledRows e store ((rows.filterMap modifier).filter validate) := by
  rw [processPullPage_spec validate modifier e rows store]
  exact ⟨rfl, rfl, rfl⟩

/-! ## Lemmas about one pull run -/

theorem filterMap_some_id (rows : List PullRow) :
    rows.filterMap (fun r => some r) = rows := by
  induction rows with
  | nil => rfl
  | cons r rest ih => simp [List.filterMap_cons, ih]

theorem processPullPage_trivial (e : Nat) (rows : List PullRow) (store : LocalStore) :
    processPullPage (fun _ => true) (fun r => some r) e rows store =
      ⟨applyPulledRows e store rows, [], rows⟩ := by
  rw [processPullPage_spec (fun _ => true) (fun r => some r) e rows store,
    filterMap_some_id]
  simp

theorem processPages_trivial (e : Nat) (pages : List (List PullRow)) :
    ∀ store : LocalStore,
    processPages (fun _ => true) (fun r => some r) e pages store =
      (applyPulledRows e store pages.flatten, pages.flatten, []) := by
  induction pages with
  | nil => intro store; rfl
  | cons pg rest ih =>
    intro store
    have hpg := processPullPage_trivial e pg store
    simp [processPages, hpg, ih, applyPulledRows, List.foldl_append, List.flatten_cons]

theorem runPullOnce_trivial (P : Nat) (hP : 0 < P) (e : Nat) (remote : List PullRow)
    (store : LocalStore) (cursor : Option PullRow) :
    runPullOnce P hP (fun _ => true) (fun r => some r) e remote store cursor =
      ⟨applyPulledRows e store remote, remote, [],
        (runPullCycle P hP remote cursor).2⟩ := by
  unfold runPullOnce
  simp only [processPages_trivial, runPullCycle_flatten]

/-- C10: `run()` only resolves after the pulled batch has been written to the
local store and its received-document events have been emitted: the state
returned by one run against a remote holding pending (non-deleted, distinct)
documents already contains every such document — a local query issued
immediately after `run()` resolves observes them — and the received event list
holds one event per pulled document. -/
theorem run_resolves_after_batch_written_and_events (P : Nat) (hP : 0 < P) (e : Nat)
    (remote : List PullRow) (store : LocalStore) (cursor : Option PullRow)
    (hnodup : (remote.map (fun r => r.id)).Nodup)
    (halive : ∀ r ∈ remote, r.deleted = false) :
    ∀ r ∈ remote,
      isPresent
        (runPullOnce P hP (fun _ => true) (fun x => some x) e remote store cursor).store
        r.id = true
      ∧ r ∈ (runPullOnce P hP (fun _ => true) (fun x => some x) e remote store
          cursor).received := by
  intro r hr
  rw [runPullOnce_trivial P hP e remote store cursor]
  refine ⟨?_, hr⟩
  obtain ⟨l1, l2, rfl⟩ := List.append_of_mem hr
  have hlast : ∀ r2 ∈ l2, r2.id ≠ r.id := by
    intro r2 h2 habs
    have hmap : (l1.map (fun x => x.id) ++ r.id :: l2.map (fun x => x.id)).Nodup := by
      simpa using hnodup
    have htail : (r.id :: l2.map (fun x => x.id)).Nodup := hmap.of_append_right
    have := (List.nodup_cons.mp htail).1
    exact this (habs ▸ List.mem_map_of_mem (fun x => x.id) h2)
  rw [isPresent_applyPulledRows_of_last e store l1 l2 r hlast,
    halive r hr]
  rfl

/-- Witness for C10: after one run against a remote holding two pending
documents, both are immediately present and both received events were
emitted. -/
theorem run_resolves_after_batch_written_and_events_witness :
    isPresent
      (runPullOnce 5 (by decide) (fun _ => true) (fun x => some x) 3 sampleRemoteAlive
        [] none).store sampleRowQ1.id = true
    ∧ sampleRowQ1 ∈ (runPullOnce 5 (by decide) (fun _ => true) (fun x => some x) 3
        sampleRemoteAlive [] none).received :=
  run_resolves_after_batch_written_and_events 5 (by decide) 3 sampleRemoteAlive [] none
    (by decide) (by decide) sampleRowQ1 (by decide)

/-! ## Lemmas about the run coordinator -/

theorem foldl_runCalls_inFlight (n : Nat) :
    ∀ s : CoordinatorState, s.inFlight = true →
      List.foldl coordinatorStep s (List.replicate n .runCall) =
        if n = 0 then s else ⟨true, true, s.startedRuns⟩ := by
  induction n with
  | zero => intro s _; rfl
  | succ n ih =>
    intro s hs
    rw [List.replicate_succ, List.foldl_cons]
    have hstep : coordinatorStep s .runCall = ⟨true, true, s.startedRuns⟩ := by
      cases s
      simp_all [coordinatorStep]
    rw [hstep, ih _ rfl]
    by_cases hn : n = 0 <;> simp [hn]

theorem runCoordinator_replicate_runCalls (N : Nat) :
    runCoordinator (List.replicate N .runCall) =
      if N = 0 then coordinatorInit else ⟨true, decide (2 ≤ N), 1⟩ := by
  cases N with
  | zero => rfl
  | succ n =>
    unfold runCoordinator
    rw [List.replicate_succ, List.foldl_cons]
    have hstep : coordinatorStep coordinatorInit .runCall = ⟨true, false, 1⟩ := rfl
    rw [hstep, foldl_runCalls_inFlight n ⟨true, false, 1⟩ rfl]
    cases n with
    | zero => simp
    | succ m => simp [Nat.succ_le_succ, decide_eq_true_eq]

theorem foldl_cycleDones_startedRuns (k : Nat) :
    ∀ s : CoordinatorState,
      (List.foldl coordinatorStep s (List.replicate k .cycleDone)).startedRuns ≤
        s.startedRuns + (if s.pending then 1 else 0) := by
  induction k with
  | zero => intro s; simp
  | succ k ih =>
    intro s
    rw [List.replicate_succ, List.foldl_cons]
    by_cases hp : s.pending = true
    · have hstep : coordinatorStep s .cycleDone =
          { s with pending := false, startedRuns := s.startedRuns + 1 } := by
        simp [coordinatorStep, hp]
      rw [hstep]
      have := ih { s with pending := false, startedRuns := s.startedRuns + 1 }
      simp at this
      simp [hp]
      omega
    · have hp2 : s.pending = false := by simpa using hp
      have hstep : coordinatorStep s .cycleDone = { s with inFlight := false } := by
        simp [coordinatorStep, hp2]
      rw [hstep]
      have := ih { s with inFlight := false }
      simp [hp2] at this ⊢
      omega

/-- C5: the run coordinator coalesces concurrent `run()` requests: a burst of
N `run()` calls while cycles only complete afterwards (for example because the
endpoint always errors) starts at most 2 actual pull/push cycles — one
in-flight cycle plus at most one pending trailing cycle — and in particular
fewer than 10, independent of N. -/
theorem run_coalescing_bounds_executed_cycles (N k : Nat) :
    (runCoordinator (List.replicate N .runCall ++ List.replicate k .cycleDone)).startedRuns ≤ 2
    ∧ (runCoordinator
        (List.replicate N .runCall ++ List.replicate k .cycleDone)).startedRuns < 10 := by
  have hsplit : runCoordinator (List.replicate N .runCall ++ List.replicate k .cycleDone) =
      List.foldl coordinatorStep (runCoordinator (List.replicate N .runCall))
        (List.replicate k .cycleDone) := by
    unfold runCoordinator
    rw [List.foldl_append]
  have hbound : (runCoordinator
      (List.replicate N .runCall ++ List.replicate k .cycleDone)).startedRuns ≤ 2 := by
    rw [hsplit, runCoordinator_replicate_runCalls]
    by_cases hN : N = 0
    · rw [if_pos hN]
      have h1 := foldl_cycleDones_startedRuns k coordinatorInit
      have h2 : coordinatorInit.startedRuns +
          (if coordinatorInit.pending then 1 else 0) = 0 := rfl
      omega
    · rw [if_neg hN]
      have h1 := foldl_cycleDones_startedRuns k ⟨true, decide (2 ≤ N), 1⟩
      have h2 : (⟨true, decide (2 ≤ N), 1⟩ : CoordinatorState).startedRuns +
          (if (⟨true, decide (2 ≤ N), 1⟩ : CoordinatorState).pending then 1 else 0) ≤ 2 := by
        by_cases h3 : 2 ≤ N <;> simp [h3]
      omega
  exact ⟨hbound, by omega⟩

/-! ## Lemmas about the retry loop -/

theorem retryLoop_stopped_attempts (outcomes : Nat → Bool) :
    ∀ n, (retryLoop outcomes n).stopped = false ∧ (retryLoop outcomes n).attempts = n := by
  intro n
  induction n with
  | zero => exact ⟨rfl, rfl⟩
  | succ n ih =>
    have hstep : retryLoop outcomes (n + 1) = retryStep outcomes (retryLoop outcomes n) := rfl
    rw [hstep]
    unfold retryStep
    rw [ih.1]
    simp [ih.2]

theorem retryLoop_resolved_iff (outcomes : Nat → Bool) :
    ∀ n, (retryLoop outcomes n).resolvedInitial = true ↔ ∃ i, i < n ∧ outcomes i = true := by
  intro n
  induction n with
  | zero =>
    simp [retryLoop, retryInit]
  | succ n ih =>
    have hstep : retryLoop outcomes (n + 1) = retryStep outcomes (retryLoop outcomes n) := rfl
    rw [hstep]
    unfold retryStep
    rw [(retryLoop_stopped_attempts outcomes n).1]
    simp only [Bool.false_eq_true, if_false, (retryLoop_stopped_attempts outcomes n).2,
      Bool.or_eq_true, ih]
    constructor
    · rintro (⟨i, hi, ho⟩ | ho)
      · exact ⟨i, by omega, ho⟩
      · exact ⟨n, by omega, ho⟩
    · rintro ⟨i, hi, ho⟩
      by_cases hin : i = n
      · exact Or.inr (hin ▸ ho)
      · exact Or.inl ⟨i, by omega, ho⟩

/-- C6: `awaitInitialReplication()` resolves exactly when some run so far
completed with no error (the first error-free run); on an endpoint where every
run fails it never resolves — after any number of retry steps it is still
unresolved, the session is not stopped (the coordinator never gives up or
rejects on its own), and the attempt counter equals the number of steps, so
the coordinator keeps retrying after each `retryTime` delay indefinitely and
any bound must be imposed externally. -/
theorem await_initial_replication_resolution (outcomes : Nat → Bool) (n : Nat) :
    ((retryLoop outcomes n).resolvedInitial = true ↔ ∃ i, i < n ∧ outcomes i = true)
    ∧ ((∀ i, outcomes i = false) →
        (retryLoop outcomes n).resolvedInitial = false
        ∧ (retryLoop outcomes n).stopped = false
        ∧ (retryLoop outcomes n).attempts = n) := by
  refine ⟨retryLoop_resolved_iff outcomes n, ?_⟩
  intro hfail
  refine ⟨?_, (retryLoop_stopped_attempts outcomes n).1,
    (retryLoop_stopped_attempts outcomes n).2⟩
  by_cases hres : (retryLoop outcomes n).resolvedInitial = true
  · rcases (retryLoop_resolved_iff outcomes n).mp hres with ⟨i, _, ho⟩
    rw [hfail i] at ho
    exact absurd ho (by decide)
  · simpa using hres

/-- Witness for C6: with an always-erroring endpoint, after 5 retry steps the
initial replication is unresolved, the session not stopped, and 5 attempts
were made. -/
theorem await_initial_replication_resolution_witness :
    (retryLoop (fun _ => false) 5).resolvedInitial = false
    ∧ (retryLoop (fun _ => false) 5).stopped = false
    ∧ (retryLoop (fun _ => false) 5).attempts = 5 :=
  (await_initial_replication_resolution (fun _ => false) 5).2 (fun _ => rfl)

end RxdbReplication
